import Mathlib

/-!
Verification of the qmvpa numerical helper library.

The three python modules utils, rsa and factor are shallowly embedded over
rational matrices. Matrices are total functions on indices; the loops
that fill preallocated numpy arrays are embedded as folds over index
ranges starting from the zero function, mirroring np.zeros preallocation
followed by index assignment. External numerical primitives that the
repository only calls (the Pearson correlation of np.corrcoef, the PCA
fit of sklearn, the Procrustes disparity of scipy) are abstracted as
function parameters, as the specification lists them among the external
collaborators; everything the repository itself computes (index
selection, slicing, loop fills, means, cumulative sums) is embedded
concretely.
-/

namespace Qmvpa

/-- Embedding of utils.reflect_upper_triangular_part for an n by n matrix.
The source assigns matrix[irows, icols] = matrix[icols, irows] over the
strict upper triangular indices np.triu_indices(n, 1); numpy gathers the
right hand side (the old lower triangular values) before scattering, so
the functional update reads the original matrix. The source mutates its
argument in place and returns it; the embedding passes the state
explicitly and the returned matrix is the updated state. -/
def reflect_upper_triangular_part (n : Nat) (M : Nat → Nat → ℚ) : Nat → Nat → ℚ :=
  fun r c => if r < c ∧ c < n then M c r else M r c

/-- C7: reflect_upper_triangular_part leaves the diagonal and the strict
lower triangle unchanged, copies each strictly lower triangular entry at
(c, r) with r < c to its mirror position (r, c), and the resulting n by n
matrix equals its own transpose. -/
theorem reflect_upper_triangular_part_spec (n : Nat) (M : Nat → Nat → ℚ) :
    (∀ r c, c ≤ r → reflect_upper_triangular_part n M r c = M r c)
    ∧ (∀ r c, r < c → c < n → reflect_upper_triangular_part n M r c = M c r)
    ∧ (∀ r c, r < n → c < n →
        reflect_upper_triangular_part n M r c = reflect_upper_triangular_part n M c r) := by
  refine ⟨fun r c h => ?_, fun r c h1 h2 => ?_, fun r c h1 h2 => ?_⟩
  · simp only [reflect_upper_triangular_part]
    rw [if_neg (by omega)]
  · simp only [reflect_upper_triangular_part]
    rw [if_pos ⟨h1, h2⟩]
  · simp only [reflect_upper_triangular_part]
    rcases lt_trichotomy r c with h | h | h
    · rw [if_pos ⟨h, h2⟩, if_neg (by omega)]
    · subst h
      rfl
    · rw [if_neg (by omega), if_pos ⟨h, h1⟩]

theorem reflect_upper_triangular_part_witness :
    reflect_upper_triangular_part 2 (fun r c => (10 * r + c : ℚ)) 0 1
      = (fun r c => (10 * r + c : ℚ)) 1 0 :=
  (reflect_upper_triangular_part_spec 2 (fun r c => (10 * r + c : ℚ))).2.1 0 1
    (by decide) (by decide)

/-- Embedding of utils.window_avg: non overlapping window averaging over
axis 0. The source computes n0_new = n0 / win, preallocates an n0_new by
n1 zero matrix, and fills row i with the columnwise mean of rows
i * win .. (i + 1) * win - 1 of the input; the fold over the row indices
mirrors the fill loop and the zero function mirrors the preallocation. -/
def window_avg (n0 : Nat) (M : Nat → Nat → ℚ) (win : Nat) : Nat → Nat → ℚ :=
  (List.range (n0 / win)).foldl
    (fun acc i => fun r c =>
      if r = i then (∑ k ∈ Finset.range win, M (i * win + k) c) / (win : ℚ) else acc r c)
    (fun _ _ => 0)

lemma window_avg_foldl (M : Nat → Nat → ℚ) (win : Nat) (m : Nat) (r c : Nat) :
    ((List.range m).foldl
      (fun acc i => fun r c =>
        if r = i then (∑ k ∈ Finset.range win, M (i * win + k) c) / (win : ℚ) else acc r c)
      (fun _ _ => 0)) r c
    = if r < m then (∑ k ∈ Finset.range win, M (r * win + k) c) / (win : ℚ) else 0 := by
  induction m with
  | zero => simp
  | succ m ih =>
    rw [List.range_succ, List.foldl_append, List.foldl_cons, List.foldl_nil]
    by_cases hr : r = m
    · subst hr
      simp
    · simp only [if_neg hr]
      rw [ih]
      by_cases h1 : r < m
      · rw [if_pos h1, if_pos (by omega)]
      · rw [if_neg h1, if_neg (by omega)]

/-- C8: window_avg returns a matrix with n0 / win rows; row i is the
columnwise mean of the win input rows i * win .. (i + 1) * win - 1; every
input row index that is read lies strictly below n0 - n0 % win, so the
trailing n0 % win rows are silently excluded; rows at or beyond n0 / win
keep the preallocated zero value. -/
theorem window_avg_spec (M : Nat → Nat → ℚ) (n0 win : Nat) (_hwin : 0 < win)
    (i : Nat) (hi : i < n0 / win) :
    (∀ c, window_avg n0 M win i c = (∑ k ∈ Finset.range win, M (i * win + k) c) / (win : ℚ))
    ∧ (∀ k, k < win → i * win + k < n0 - n0 % win)
    ∧ (∀ r c, n0 / win ≤ r → window_avg n0 M win r c = 0) := by
  refine ⟨fun c => ?_, fun k hk => ?_, fun r c hr => ?_⟩
  · rw [window_avg, window_avg_foldl, if_pos hi]
  · have h2 : win * (n0 / win) + n0 % win = n0 := Nat.div_add_mod n0 win
    calc i * win + k < i * win + win := Nat.add_lt_add_left hk (i * win)
      _ = (i + 1) * win := by ring
      _ ≤ (n0 / win) * win := Nat.mul_le_mul_right win hi
      _ = win * (n0 / win) := Nat.mul_comm _ _
      _ = n0 - n0 % win := (Nat.sub_eq_of_eq_add h2.symm).symm
  · rw [window_avg, window_avg_foldl, if_neg (by omega)]

theorem window_avg_spec_witness :
    window_avg 4 (fun r _ => (r : ℚ)) 2 1 0 = 5 / 2 := by
  have h := (window_avg_spec (fun r _ => (r : ℚ)) 4 2 (by decide) 1 (by decide)).1 0
  rw [h]
  norm_num [Finset.sum_range_succ]

/-- C10: when the window size exceeds the number of rows, window_avg is
still well defined: the output row count n0 / win is zero, the fill loop
never executes, no input row is read, and every entry of the result is
the preallocated zero. -/
theorem window_avg_oversized (M : Nat → Nat → ℚ) (n0 win : Nat) (h : n0 < win) :
    n0 / win = 0 ∧ ∀ r c, window_avg n0 M win r c = 0 := by
  have h0 : n0 / win = 0 := Nat.div_eq_of_lt h
  exact ⟨h0, fun r c => by rw [window_avg, h0]; rfl⟩

theorem window_avg_oversized_witness :
    (1 : Nat) / 3 = 0 ∧ ∀ r c, window_avg 1 (fun _ _ => (7 : ℚ)) 3 r c = 0 :=
  window_avg_oversized (fun _ _ => (7 : ℚ)) 1 3 (by decide)

/-- Generic embedding of the nested fill loops of rsa.correlate_RSMs and
rsa.inter_procrustes: for i in range n, for j in range (bnd i), assign
entry (i, j) the value v i j, starting from the preallocated matrix g.
In correlate_RSMs the inner bound is i + 1 (np.arange(0, i + 1, 1)), in
inter_procrustes it is i (np.arange(0, i)). -/
def fillLoop (v : Nat → Nat → ℚ) (bnd : Nat → Nat) (n : Nat)
    (g : Nat → Nat → ℚ) : Nat → Nat → ℚ :=
  (List.range n).foldl
    (fun D i =>
      (List.range (bnd i)).foldl
        (fun D2 j => fun r c => if r = i ∧ c = j then v i j else D2 r c) D)
    g

lemma fillLoop_inner (v : Nat → Nat → ℚ) (i m : Nat) (D : Nat → Nat → ℚ) (r c : Nat) :
    ((List.range m).foldl
      (fun D2 j => fun r c => if r = i ∧ c = j then v i j else D2 r c) D) r c
    = if r = i ∧ c < m then v i c else D r c := by
  induction m with
  | zero => simp
  | succ m ih =>
    rw [List.range_succ, List.foldl_append, List.foldl_cons, List.foldl_nil]
    by_cases h : r = i ∧ c = m
    · rw [if_pos h, if_pos ⟨h.1, by omega⟩, h.2]
    · rw [if_neg h, ih]
      by_cases h2 : r = i ∧ c < m
      · rw [if_pos h2, if_pos ⟨h2.1, by omega⟩]
      · rw [if_neg h2, if_neg (by
          rintro ⟨ha, hb⟩
          rcases Nat.lt_succ_iff_lt_or_eq.mp hb with h3 | h3
          · exact h2 ⟨ha, h3⟩
          · exact h ⟨ha, h3⟩)]

lemma fillLoop_apply (v : Nat → Nat → ℚ) (bnd : Nat → Nat) (n : Nat)
    (g : Nat → Nat → ℚ) (r c : Nat) :
    fillLoop v bnd n g r c = if r < n ∧ c < bnd r then v r c else g r c := by
  induction n with
  | zero => simp [fillLoop]
  | succ n ih =>
    rw [fillLoop, List.range_succ, List.foldl_append, List.foldl_cons, List.foldl_nil]
    rw [fillLoop] at ih
    rw [fillLoop_inner]
    by_cases h : r = n ∧ c < bnd n
    · obtain ⟨h1, h2⟩ := h
      subst h1
      rw [if_pos ⟨rfl, h2⟩, if_pos ⟨Nat.lt_succ_self r, h2⟩]
    · rw [if_neg h, ih]
      by_cases h2 : r < n ∧ c < bnd r
      · rw [if_pos h2, if_pos ⟨Nat.lt_succ_of_lt h2.1, h2.2⟩]
      · rw [if_neg h2, if_neg (by
          rintro ⟨ha, hb⟩
          rcases Nat.lt_succ_iff_lt_or_eq.mp ha with h3 | h3
          · exact h2 ⟨h3, hb⟩
          · exact h ⟨h3, h3 ▸ hb⟩)]

/-- Embedding of rsa.inter_procrustes: given an ordered sequence of
subject matrices, fills a preallocated zero n by n matrix with
D[i, j] = procrustes disparity of subjects i and j, only for j < i.
The scipy procrustes disparity is an external primitive, abstracted as
the parameter disp. -/
def inter_procrustes {α : Type} [Inhabited α] (disp : α → α → ℚ)
    (ms : List α) : Nat → Nat → ℚ :=
  fillLoop (fun i j => disp (ms.getD i default) (ms.getD j default))
    (fun i => i) ms.length (fun _ _ => 0)

/-- C6: inter_procrustes returns an n by n matrix whose entries at
(i, j) with j >= i (diagonal and strict upper triangle) are all zero,
and whose entries with j < i hold the disparity of subjects i and j; the
upper triangle is never filled by symmetry and the diagonal
self comparison is never computed. -/
theorem inter_procrustes_lower_triangular {α : Type} [Inhabited α]
    (disp : α → α → ℚ) (ms : List α) (i j : Nat) :
    (j < i → i < ms.length →
      inter_procrustes disp ms i j = disp (ms.getD i default) (ms.getD j default))
    ∧ (i ≤ j → inter_procrustes disp ms i j = 0)
    ∧ (ms.length ≤ i → inter_procrustes disp ms i j = 0) := by
  refine ⟨fun h1 h2 => ?_, fun h => ?_, fun h => ?_⟩
  · rw [inter_procrustes, fillLoop_apply, if_pos ⟨h2, h1⟩]
  · rw [inter_procrustes, fillLoop_apply, if_neg (by omega)]
  · rw [inter_procrustes, fillLoop_apply, if_neg (by omega)]

theorem inter_procrustes_witness :
    inter_procrustes (fun a b : ℚ => a - b) [(5 : ℚ), 7] 1 0
      = (fun a b : ℚ => a - b) (([(5 : ℚ), 7]).getD 1 default)
          (([(5 : ℚ), 7]).getD 0 default) :=
  (inter_procrustes_lower_triangular (fun a b : ℚ => a - b) [(5 : ℚ), 7] 1 0).1
    (by decide) (by decide)

/-- Embedding of np.reshape(rsm, (-1,)) for a 2d matrix given as a list
of rows: the flattened 1d sequence of entries. -/
def reshapeFlat (m : List (List ℚ)) : List ℚ :=
  m.flatten

/-- Embedding of np.shape for a 2d matrix given as a list of rows. -/
def npShape (m : List (List ℚ)) : Nat × Nat :=
  (m.length, (m.headD []).length)

/-- Embedding of rsa.correlate_2RSMs. The source body is a single line:
np.corrcoef(np.reshape(rsm1, (-1,)), np.reshape(rsm2, (-1,)))[0, 1]; it
contains no assertion. The external np.corrcoef primitive is abstracted
as the parameter corr giving the Pearson correlation of two equal length
vectors; np.corrcoef raises a library error when the two stacked 1d
arrays have different lengths, which the embedding models as none. -/
def correlate_2RSMs (corr : List ℚ → List ℚ → ℚ)
    (rsm1 rsm2 : List (List ℚ)) : Option ℚ :=
  if (reshapeFlat rsm1).length = (reshapeFlat rsm2).length then
    some (corr (reshapeFlat rsm1) (reshapeFlat rsm2))
  else
    none

/-- C9 counterexample: the claim says a shape mismatch between the two
RSM arguments halts execution through an assertion style check, but the
source function has no such check: these two matrices have different
shapes, 2 by 3 against 3 by 2, yet correlate_2RSMs accepts them and
returns a correlation of the flattened sequences. -/
theorem correlate_2RSMs_shape_mismatch_accepted :
    npShape [[(1 : ℚ), 2, 3], [4, 5, 6]] ≠ npShape [[(1 : ℚ), 2], [3, 4], [5, 6]]
    ∧ (correlate_2RSMs (fun _ _ => 0)
        [[(1 : ℚ), 2, 3], [4, 5, 6]] [[(1 : ℚ), 2], [3, 4], [5, 6]]).isSome = true := by
  constructor
  · decide
  · rfl

/-- C9 amended: correlate_2RSMs performs no shape check of its own; it
flattens both arguments, computes their correlation whenever the two
flattened sequences have equal length (in particular for any two
matrices of different shape but equal total size), and fails only
through the underlying library when the flattened lengths differ. -/
theorem correlate_2RSMs_flatten_contract (corr : List ℚ → List ℚ → ℚ)
    (rsm1 rsm2 : List (List ℚ)) :
    ((reshapeFlat rsm1).length = (reshapeFlat rsm2).length →
      correlate_2RSMs corr rsm1 rsm2
        = some (corr (reshapeFlat rsm1) (reshapeFlat rsm2)))
    ∧ ((reshapeFlat rsm1).length ≠ (reshapeFlat rsm2).length →
      correlate_2RSMs corr rsm1 rsm2 = none) := by
  constructor
  · intro h
    rw [correlate_2RSMs, if_pos h]
  · intro h
    rw [correlate_2RSMs, if_neg h]

theorem correlate_2RSMs_flatten_contract_witness :
    correlate_2RSMs (fun x y => x.headD 0 * y.headD 0) [[(2 : ℚ)]] [[(3 : ℚ)]]
      = some ((fun x y : List ℚ => x.headD 0 * y.headD 0)
          (reshapeFlat [[(2 : ℚ)]]) (reshapeFlat [[(3 : ℚ)]])) :=
  (correlate_2RSMs_flatten_contract (fun x y => x.headD 0 * y.headD 0)
    [[(2 : ℚ)]] [[(3 : ℚ)]]).1 (by decide)

/-- Embedding of rsa.correlate_RSMs: preallocates a zero n by n matrix,
fills entry (i, j) with correlate_2RSMs(rsms[i], rsms[j]) for every i
and every j in np.arange(0, i + 1, 1), then fills the strict upper
triangle through reflect_upper_triangular_part. Under the shape
hypotheses of the claim the Option returned by correlate_2RSMs is always
some; the embedding extracts it with a default that is never used. -/
def correlate_RSMs (corr : List ℚ → List ℚ → ℚ)
    (rsms : List (List (List ℚ))) : Nat → Nat → ℚ :=
  reflect_upper_triangular_part rsms.length
    (fillLoop
      (fun i j => (correlate_2RSMs corr (rsms.getD i []) (rsms.getD j [])).getD 0)
      (fun i => i + 1) rsms.length (fun _ _ => 0))

/-- C4: for identically shaped RSMs and the symmetric Pearson
correlation, every entry (i, j) of correlate_RSMs, whether taken from
the directly computed lower triangle (j at most i) or from the mirrored
strict upper triangle (j above i), equals the value correlate_2RSMs
would give on (rsms[i], rsms[j]) directly, and the matrix is symmetric:
the mirroring is exact, not an approximation. -/
theorem correlate_RSMs_spec (corr : List ℚ → List ℚ → ℚ)
    (hsymm : ∀ x y, corr x y = corr y x)
    (rsms : List (List (List ℚ)))
    (hshape : ∀ a ∈ rsms, ∀ b ∈ rsms,
      (reshapeFlat a).length = (reshapeFlat b).length)
    (i j : Nat) (hi : i < rsms.length) (hj : j < rsms.length) :
    (correlate_2RSMs corr (rsms.getD i []) (rsms.getD j [])
        = some (corr (reshapeFlat (rsms.getD i [])) (reshapeFlat (rsms.getD j []))))
    ∧ correlate_RSMs corr rsms i j
        = corr (reshapeFlat (rsms.getD i [])) (reshapeFlat (rsms.getD j []))
    ∧ correlate_RSMs corr rsms i j = correlate_RSMs corr rsms j i := by
  have hmem : ∀ k, k < rsms.length → rsms.getD k [] ∈ rsms := by
    intro k hk
    rw [List.getD_eq_getElem rsms [] hk]
    exact List.getElem_mem hk
  have hsome : ∀ a b, a < rsms.length → b < rsms.length →
      correlate_2RSMs corr (rsms.getD a []) (rsms.getD b [])
        = some (corr (reshapeFlat (rsms.getD a [])) (reshapeFlat (rsms.getD b []))) := by
    intro a b ha hb
    exact (correlate_2RSMs_flatten_contract corr _ _).1
      (hshape _ (hmem a ha) _ (hmem b hb))
  have hval : ∀ a b, a < rsms.length → b < rsms.length →
      correlate_RSMs corr rsms a b
        = corr (reshapeFlat (rsms.getD a [])) (reshapeFlat (rsms.getD b [])) := by
    intro a b ha hb
    rw [correlate_RSMs, reflect_upper_triangular_part]
    by_cases hab : a < b ∧ b < rsms.length
    · rw [if_pos hab, fillLoop_apply, if_pos ⟨hb, by omega⟩, hsome b a hb ha]
      simp only [Option.getD_some]
      exact hsymm _ _
    · rw [if_neg hab, fillLoop_apply, if_pos ⟨ha, by omega⟩, hsome a b ha hb]
      simp only [Option.getD_some]
  refine ⟨hsome i j hi hj, hval i j hi hj, ?_⟩
  rw [hval i j hi hj, hval j i hj hi]
  exact hsymm _ _

theorem correlate_RSMs_spec_witness :
    correlate_RSMs (fun _ _ => (0 : ℚ)) [[[(1 : ℚ)]], [[(2 : ℚ)]]] 0 1
      = correlate_RSMs (fun _ _ => (0 : ℚ)) [[[(1 : ℚ)]], [[(2 : ℚ)]]] 1 0 :=
  (correlate_RSMs_spec (fun _ _ => (0 : ℚ)) (fun _ _ => rfl)
    [[[(1 : ℚ)]], [[(2 : ℚ)]]] (by decide) 0 1 (by decide) (by decide)).2.2

/-- Contract of the external np.corrcoef primitive over a stack of m row
vectors of length d: entry (i, j) is the Pearson correlation of rows i
and j, the scalar correlation itself being the abstracted parameter
corr. -/
def corrcoefM {d m : Nat} (corr : (Fin d → ℚ) → (Fin d → ℚ) → ℚ)
    (R : Fin m → Fin d → ℚ) : Fin m → Fin m → ℚ :=
  fun i j => corr (R i) (R j)

/-- The row stack np.corrcoef builds for rsa.inter_RSM: the rows of the
transpose of m1 (the columns of m1) followed by the rows of the
transpose of m2. -/
def stackT {d n : Nat} (m1 m2 : Fin d → Fin n → ℚ) : Fin (n + n) → Fin d → ℚ :=
  fun i f =>
    if h : (i : Nat) < n then m1 f ⟨i, h⟩
    else m2 f ⟨(i : Nat) - n, by have := i.isLt; omega⟩

/-- Embedding of rsa.inter_RSM: one correlation matrix computation over
the stacked transposes of the two activation matrices, sliced with
[:n_examples, n_examples:]. Entry (i, j) of the slice is entry
(i, n + j) of the big correlation matrix. The shape assertion of the
source holds by type: both matrices are d by n. -/
def inter_RSM {d n : Nat} (corr : (Fin d → ℚ) → (Fin d → ℚ) → ℚ)
    (m1 m2 : Fin d → Fin n → ℚ) : Fin n → Fin n → ℚ :=
  fun i j =>
    corrcoefM corr (stackT m1 m2)
      ⟨(i : Nat), by have := i.isLt; omega⟩
      ⟨n + (j : Nat), by have := j.isLt; omega⟩

/-- The specification reading of inter_RSM, stated per entry: entry
(i, j) is the correlation of column i of m1 with column j of m2. -/
def interRSM_naive {d n : Nat} (corr : (Fin d → ℚ) → (Fin d → ℚ) → ℚ)
    (m1 m2 : Fin d → Fin n → ℚ) : Fin n → Fin n → ℚ :=
  fun i j => corr (fun f => m1 f i) (fun f => m2 f j)

/-- C3: for matrices with at least two rows, the sliced correlation
matrix that inter_RSM computes over the horizontal concatenation of the
two transposes equals the naive per entry definition, whose entry (i, j)
is the correlation of column i of m1 with column j of m2. -/
theorem inter_RSM_eq_naive {d n : Nat} (corr : (Fin d → ℚ) → (Fin d → ℚ) → ℚ)
    (m1 m2 : Fin d → Fin n → ℚ) (_hd : 2 ≤ d) :
    inter_RSM corr m1 m2 = interRSM_naive corr m1 m2 := by
  funext i j
  have h1 : stackT m1 m2 ⟨(i : Nat), by have := i.isLt; omega⟩ = fun f => m1 f i := by
    funext f
    unfold stackT
    rw [dif_pos i.isLt]
  have h2 : stackT m1 m2 ⟨n + (j : Nat), by have := j.isLt; omega⟩ = fun f => m2 f j := by
    funext f
    unfold stackT
    rw [dif_neg (by omega : ¬ n + (j : Nat) < n)]
    congr 1
    ext
    simp only [Fin.val_mk]
    omega
  simp only [inter_RSM, corrcoefM, interRSM_naive]
  rw [h1, h2]

theorem inter_RSM_eq_naive_witness :
    inter_RSM (d := 2) (n := 1) (fun x y => x 0 * y 0)
        (fun _ _ => (1 : ℚ)) (fun _ _ => (2 : ℚ))
      = interRSM_naive (d := 2) (n := 1) (fun x y => x 0 * y 0)
          (fun _ _ => (1 : ℚ)) (fun _ _ => (2 : ℚ)) :=
  inter_RSM_eq_naive (fun x y => x 0 * y 0)
    (fun _ _ => (1 : ℚ)) (fun _ _ => (2 : ℚ)) (by decide)

/-- Embedding of np.mean(list_of_matrices, axis=0): the pointwise mean
of a list of matrices, each entry being the sum of the corresponding
entries divided by the number of matrices. -/
def matListMean {α β : Type} (ms : List (α → β → ℚ)) : α → β → ℚ :=
  fun a b => (ms.map (fun m => m a b)).sum / (ms.length : ℚ)

/-- Embedding of rsa.inter_RSMs: for each leave one out index, the mean
of the matrices at the other indices (matrix_array selected by the mask
np.arange(len) != loo_idx) is compared through inter_RSM to the left out
matrix, and the resulting list of RSMs is averaged pointwise. -/
def inter_RSMs {d n : Nat} (corr : (Fin d → ℚ) → (Fin d → ℚ) → ℚ)
    (ms : List (Fin d → Fin n → ℚ)) : Fin n → Fin n → ℚ :=
  matListMean
    ((List.range ms.length).map (fun i =>
      inter_RSM corr (ms.getD i (fun _ _ => 0))
        (matListMean
          (((List.range ms.length).filter (fun j => decide (j ≠ i))).map
            (fun j => ms.getD j (fun _ _ => 0))))))

/-- The specification reading of the leave one out mean for subject i:
the pointwise mean over the other subjects, written as a sum over the
index set with i erased, divided by the number of subjects minus one. -/
def looMeanOthers {d n : Nat} (ms : List (Fin d → Fin n → ℚ)) (i : Nat) :
    Fin d → Fin n → ℚ :=
  fun f e =>
    (∑ j ∈ (Finset.range ms.length).erase i, ms.getD j (fun _ _ => 0) f e)
      / ((ms.length - 1 : Nat) : ℚ)

/-- The specification reading of inter_RSMs: the pointwise mean over
subjects i of inter_RSM applied to subject i and the pointwise mean of
the other subjects. -/
def interRSMs_desc {d n : Nat} (corr : (Fin d → ℚ) → (Fin d → ℚ) → ℚ)
    (ms : List (Fin d → Fin n → ℚ)) : Fin n → Fin n → ℚ :=
  fun a b =>
    (∑ i ∈ Finset.range ms.length,
      inter_RSM corr (ms.getD i (fun _ _ => 0)) (looMeanOthers ms i) a b)
      / (ms.length : ℚ)

lemma list_range_map_sum (n : Nat) (f : Nat → ℚ) :
    ((List.range n).map f).sum = ∑ i ∈ Finset.range n, f i := by
  induction n with
  | zero => simp
  | succ n ih =>
    rw [List.range_succ, List.map_append, List.sum_append, Finset.sum_range_succ, ih]
    simp

lemma filter_ne_range_sum (g : Nat → ℚ) (i n : Nat) (h : i < n) :
    (((List.range n).filter (fun j => decide (j ≠ i))).map g).sum
      = (∑ j ∈ Finset.range n, g j) - g i := by
  induction n with
  | zero => omega
  | succ n ih =>
    rw [List.range_succ, List.filter_append, List.map_append, List.sum_append,
      Finset.sum_range_succ]
    by_cases hin : i < n
    · rw [ih hin]
      simp only [List.filter_cons, List.filter_nil, decide_eq_true_eq]
      rw [if_pos (by omega : n ≠ i)]
      simp only [List.map_cons, List.map_nil, List.sum_cons, List.sum_nil]
      ring
    · have hi : i = n := by omega
      subst hi
      simp only [List.filter_cons, List.filter_nil, decide_eq_true_eq]
      rw [if_neg (by omega : ¬ i ≠ i)]
      have hall : (List.range i).filter (fun j => decide (j ≠ i)) = List.range i := by
        apply List.filter_eq_self.mpr
        intro a ha
        have := List.mem_range.mp ha
        simp only [decide_eq_true_eq]
        omega
      rw [hall, list_range_map_sum]
      simp

lemma filter_ne_range_length (i n : Nat) (h : i < n) :
    ((List.range n).filter (fun j => decide (j ≠ i))).length = n - 1 := by
  induction n with
  | zero => omega
  | succ n ih =>
    rw [List.range_succ, List.filter_append, List.length_append]
    by_cases hin : i < n
    · rw [ih hin]
      simp only [List.filter_cons, List.filter_nil, decide_eq_true_eq]
      rw [if_pos (by omega : n ≠ i)]
      simp only [List.length_cons, List.length_nil]
      omega
    · have hi : i = n := by omega
      subst hi
      simp only [List.filter_cons, List.filter_nil, decide_eq_true_eq]
      rw [if_neg (by omega : ¬ i ≠ i)]
      have hall : (List.range i).filter (fun j => decide (j ≠ i)) = List.range i := by
        apply List.filter_eq_self.mpr
        intro a ha
        have := List.mem_range.mp ha
        simp only [decide_eq_true_eq]
        omega
      rw [hall]
      simp

/-- C5: for a non empty list of subject matrices, inter_RSMs equals the
pointwise mean over subjects i of inter_RSM applied to the matrix of
subject i and the pointwise mean of the other subjects. -/
theorem inter_RSMs_loo_mean {d n : Nat} (corr : (Fin d → ℚ) → (Fin d → ℚ) → ℚ)
    (ms : List (Fin d → Fin n → ℚ)) (_hms : 0 < ms.length) :
    inter_RSMs corr ms = interRSMs_desc corr ms := by
  funext a b
  simp only [inter_RSMs, interRSMs_desc, matListMean, List.map_map, List.length_map,
    List.length_range]
  rw [list_range_map_sum]
  congr 1
  apply Finset.sum_congr rfl
  intro i hi
  have hilt : i < ms.length := Finset.mem_range.mp hi
  simp only [Function.comp]
  congr 1
  funext f e
  simp only [matListMean, looMeanOthers, List.map_map, List.length_map, Function.comp]
  rw [filter_ne_range_sum _ _ _ hilt, filter_ne_range_length _ _ hilt]
  congr 1
  exact (eq_sub_of_add_eq
    (Finset.sum_erase_add (Finset.range ms.length)
      (fun j => ms.getD j (fun _ _ => 0) f e) (Finset.mem_range.mpr hilt))).symm

theorem inter_RSMs_loo_mean_witness :
    inter_RSMs (d := 1) (n := 1) (fun x y => x 0 + y 0)
        [fun _ _ => (3 : ℚ), fun _ _ => (5 : ℚ)]
      = interRSMs_desc (d := 1) (n := 1) (fun x y => x 0 + y 0)
          [fun _ _ => (3 : ℚ), fun _ _ => (5 : ℚ)] :=
  inter_RSMs_loo_mean (fun x y => x 0 + y 0)
    [fun _ _ => (3 : ℚ), fun _ _ => (5 : ℚ)] (by decide)

/-- Embedding of np.where(arr > t)[0] for a 1d array: the ordered list
of the indices whose entry exceeds t. -/
def npWhereGt (l : List ℚ) (t : ℚ) : List Nat :=
  (List.range l.length).filter (fun i => decide (l.getD i 0 > t))

/-- Embedding of factor.chose_n_components. The source asserts that the
two lists have equal length and that the threshold lies strictly
between 0 and 1; the guard models the two assertions, none standing for
the halted execution. The fallback n_component_list[-1] raises on an
empty list, which getLast? models as none; the candidate access
n_component_list[candidiates_ids[0]] is modelled by the optional index
lookup. -/
def chose_n_components (k_list : List Nat) (cum_var_exp : List ℚ) (t : ℚ) :
    Option Nat :=
  if k_list.length = cum_var_exp.length ∧ 0 < t ∧ t < 1 then
    match npWhereGt cum_var_exp t with
    | [] => k_list.getLast?
    | i :: _ => k_list[i]?
  else
    none

/-- The specification reading of the selection helper: the first entry
of k_list whose corresponding cumulative variance exceeds the threshold,
or the last entry of k_list when no entry exceeds it. -/
def chooseFirstOverThreshold (k_list : List Nat) (cum : List ℚ) (t : ℚ) :
    Option Nat :=
  match (k_list.zip cum).find? (fun p => decide (p.2 > t)) with
  | some p => some p.1
  | none => k_list.getLast?

lemma npWhereGt_cons (c : ℚ) (cs : List ℚ) (t : ℚ) :
    npWhereGt (c :: cs) t
      = if c > t then 0 :: (npWhereGt cs t).map Nat.succ
        else (npWhereGt cs t).map Nat.succ := by
  rw [npWhereGt, List.length_cons, List.range_succ_eq_map, List.filter_cons]
  have hmap : (List.filter (fun i => decide ((c :: cs).getD i 0 > t))
        ((List.range cs.length).map Nat.succ))
      = (npWhereGt cs t).map Nat.succ := by
    rw [List.filter_map]
    congr 1
  rw [hmap]
  by_cases hc : c > t
  · simp [hc]
  · simp [hc]

lemma find_zip_cons (k : Nat) (ks : List Nat) (c : ℚ) (cs : List ℚ) (t : ℚ) :
    ((k :: ks).zip (c :: cs)).find? (fun p => decide (p.2 > t))
      = if c > t then some (k, c)
        else (ks.zip cs).find? (fun p => decide (p.2 > t)) := by
  rw [List.zip_cons_cons]
  by_cases hc : c > t
  · rw [if_pos hc]
    exact List.find?_cons_of_pos _ (by simpa using hc)
  · rw [if_neg hc]
    exact List.find?_cons_of_neg _ (by simpa using hc)

lemma chooseFirstOverThreshold_cons (k : Nat) (ks : List Nat) (c : ℚ)
    (cs : List ℚ) (t : ℚ) :
    chooseFirstOverThreshold (k :: ks) (c :: cs) t
      = if c > t then some k
        else
          match (ks.zip cs).find? (fun p => decide (p.2 > t)) with
          | some p => some p.1
          | none => (k :: ks).getLast? := by
  rw [chooseFirstOverThreshold, find_zip_cons]
  by_cases hc : c > t
  · simp only [if_pos hc]
  · simp only [if_neg hc]

lemma chose_core (cum : List ℚ) (k_list : List Nat) (t : ℚ)
    (h : k_list.length = cum.length) :
    ((match npWhereGt cum t with
      | [] => k_list.getLast?
      | i :: _ => k_list[i]?) = chooseFirstOverThreshold k_list cum t)
    ∧ (npWhereGt cum t = []
        ↔ (k_list.zip cum).find? (fun p => decide (p.2 > t)) = none) := by
  induction cum generalizing k_list with
  | nil =>
    have hk : k_list = [] := List.length_eq_zero.mp h
    subst hk
    exact ⟨rfl, by simp [npWhereGt]⟩
  | cons c cs ih =>
    obtain ⟨k, ks, rfl⟩ : ∃ k ks, k_list = k :: ks := by
      cases k_list with
      | nil => simp at h
      | cons k ks => exact ⟨k, ks, rfl⟩
    have hlen : ks.length = cs.length := by simpa using h
    rw [npWhereGt_cons, chooseFirstOverThreshold_cons, find_zip_cons]
    by_cases hc : c > t
    · simp only [if_pos hc]
      refine ⟨?_, by simp⟩
      show (k :: ks)[0]? = some k
      exact List.getElem?_cons_zero
    · simp only [if_neg hc]
      rcases hin : npWhereGt cs t with _ | ⟨i, rest⟩
      · have hnone : (ks.zip cs).find? (fun p => decide (p.2 > t)) = none :=
          ((ih ks hlen).2).mp hin
        rw [hnone]
        exact ⟨rfl, by simp⟩
      · have hne : (ks.zip cs).find? (fun p => decide (p.2 > t)) ≠ none := by
          intro hnone
          have h2 := ((ih ks hlen).2).mpr hnone
          rw [hin] at h2
          exact List.cons_ne_nil _ _ h2
        obtain ⟨p, hp⟩ := Option.ne_none_iff_exists'.mp hne
        rw [hp]
        have hih : ks[i]? = some p.1 := by
          have h1 := (ih ks hlen).1
          rw [hin] at h1
          have h2 : ks[i]? = chooseFirstOverThreshold ks cs t := h1
          rw [chooseFirstOverThreshold, hp] at h2
          exact h2
        refine ⟨?_, by simp⟩
        show (k :: ks)[i + 1]? = some p.1
        rw [List.getElem?_cons_succ]
        exact hih

/-- C2: under the length parity and threshold range preconditions of the
source assertions, chose_n_components returns the first entry of k_list
whose corresponding cumulative variance exceeds the threshold, and the
last entry of k_list when no entry exceeds it; on the concrete inputs of
the claim, both the threshold 9/10 (where the only exceeding entry is
the last) and the threshold 99/100 (fallback to the last entry)
return 3. -/
theorem chose_n_components_spec :
    (∀ (k_list : List Nat) (cum : List ℚ) (t : ℚ),
      k_list.length = cum.length → 0 < t → t < 1 →
      chose_n_components k_list cum t = chooseFirstOverThreshold k_list cum t)
    ∧ chose_n_components [1, 2, 3] [1/2, 4/5, 19/20] (9/10) = some 3
    ∧ chose_n_components [1, 2, 3] [1/2, 4/5, 19/20] (99/100) = some 3 := by
  refine ⟨fun k_list cum t h h1 h2 => ?_, ?_, ?_⟩
  · rw [chose_n_components, if_pos ⟨h, h1, h2⟩]
    exact (chose_core cum k_list t h).1
  · have hw : npWhereGt [1/2, 4/5, 19/20] (9/10) = [2] := by
      rw [npWhereGt]
      norm_num [List.range_succ, List.filter_append, List.filter_cons,
        List.filter_nil, List.getD_cons_zero, List.getD_cons_succ]
    rw [chose_n_components, if_pos (by norm_num), hw]
    decide
  · have hw : npWhereGt [1/2, 4/5, 19/20] (99/100) = [] := by
      rw [npWhereGt]
      norm_num [List.range_succ, List.filter_append, List.filter_cons,
        List.filter_nil, List.getD_cons_zero, List.getD_cons_succ]
    rw [chose_n_components, if_pos (by norm_num), hw]
    decide

theorem chose_n_components_spec_witness :
    chose_n_components [4] [3/4] (1/2) = chooseFirstOverThreshold [4] [3/4] (1/2) :=
  chose_n_components_spec.1 [4] [3/4] (1/2) rfl (by norm_num) (by norm_num)

/-- Model of the opaque fitted PCA handle of sklearn as used by
factor.fit_pca_thresholded: the transformed training and test data, the
explained variance ratio sequence of the fitted model, and the component
count the model was fitted with. The fit itself is an external
primitive, abstracted as the fitPCA parameter of fit_pca_thresholded. -/
structure PCAResult (α : Type) where
  data_train_pca : α
  data_test_pca : α
  explained_variance_ratio : List ℚ
  n_components : Nat

/-- Embedding of np.cumsum for a 1d array: entry i is the sum of the
first i + 1 entries. -/
def cumsum (l : List ℚ) : List ℚ :=
  (List.range l.length).map (fun i => (l.take (i + 1)).sum)

/-- Embedding of factor.fit_pca_thresholded, parameterized by the
external PCA fitting primitive fitPCA (factor.fit_pca, a direct wrapper
around sklearn PCA). The source fits once at the requested component
count, takes np.cumsum of the explained variance ratios, computes the
candidate list np.where(cum_var_exp > var_exp_threshold)[0], selects the
first candidate index itself as n_components_threshold, falling back to
the requested count when there is no candidate, and returns the outputs
of a re-fit at the selected value. -/
def fit_pca_thresholded {α : Type} (fitPCA : Nat → α → α → PCAResult α)
    (n_components : Nat) (var_exp_threshold : ℚ)
    (data_train data_test : α) : PCAResult α :=
  let pca_model := fitPCA n_components data_train data_test
  let cum_var_exp := cumsum pca_model.explained_variance_ratio
  let n_components_threshold :=
    match npWhereGt cum_var_exp var_exp_threshold with
    | [] => n_components
    | i :: _ => i
  fitPCA n_components_threshold data_train data_test

/-- A concrete instantiation of the external PCA primitive for
evaluating fit_pca_thresholded: the data is trivial, the full variance
spectrum is (3/5, 2/5), and a fit at k components reports the first k
entries of the spectrum as its explained variance ratios and records k
as the fitted component count. -/
def toyPCA : Nat → Unit → Unit → PCAResult Unit :=
  fun k _ _ => ⟨(), (), [(3 : ℚ)/5, 2/5].take k, k⟩

/-- Modelled from the spec: the selection rule C1 states, namely the
smallest component count whose cumulative explained variance ratio
exceeds the threshold, falling back to the requested count when no
count does. A count c covers the first c ratios, so its cumulative
explained variance is the sum of the first c entries. -/
def smallestSufficientCount (ratios : List ℚ) (t : ℚ) (fallback : Nat) : Nat :=
  match (List.range ratios.length).find?
      (fun i => decide ((ratios.take (i + 1)).sum > t)) with
  | some i => i + 1
  | none => fallback

/-- C1 (code bug): with requested component count 2, threshold 1/2 and
variance spectrum (3/5, 2/5), the cumulative curve is (3/5, 1) and the
smallest component count whose cumulative explained variance exceeds the
threshold is 1; but fit_pca_thresholded re-fits PCA at 0 components,
because the source uses the 0 based index of the first exceeding
cumulative entry itself as the selected component count. This
contradicts the comment in the source (find k such that PCA(k) explains
more variance than the threshold) and the index to entry mapping used by
the sibling helper chose_n_components. -/
theorem fit_pca_thresholded_off_by_one :
    (fit_pca_thresholded toyPCA 2 (1/2) () ()).n_components = 0
    ∧ smallestSufficientCount [(3 : ℚ)/5, 2/5] (1/2) 2 = 1 := by
  have hcum : cumsum [(3 : ℚ)/5, 2/5] = [3/5, 1] := by
    norm_num [cumsum, List.range_succ]
  have hw : npWhereGt [(3 : ℚ)/5, 1] (1/2) = [0, 1] := by
    rw [npWhereGt]
    norm_num [List.range_succ, List.filter_append, List.filter_cons,
      List.filter_nil, List.getD_cons_zero, List.getD_cons_succ]
  constructor
  · have htake : [(3 : ℚ)/5, 2/5].take 2 = [3/5, 2/5] := rfl
    simp only [fit_pca_thresholded, toyPCA, htake, hcum, hw]
  · have hfind : (List.range ([(3 : ℚ)/5, 2/5]).length).find?
        (fun i => decide (([(3 : ℚ)/5, 2/5].take (i + 1)).sum > 1/2)) = some 0 := by
      rw [show List.range ([(3 : ℚ)/5, 2/5]).length = [0, 1] from rfl]
      apply List.find?_cons_of_pos
      norm_num
    rw [smallestSufficientCount, hfind]

end Qmvpa
